import Mathlib

/-!
Verification of the resource permission resolution and dispatch engine behind
`src/resources/tables.rs`. The repository fragment only registers two resources
(`Products` and `Brand`, each with `get => allow_read()`) against the unseen
`yeti_core` framework, so the engine itself (registry, predicate evaluation,
composition resolver, dispatcher) is modelled from the specification, and the
two registration call sites are embedded as the concrete registry
`demoRegistry`.
-/

namespace Authz

/-- Modelled from the spec: a `ResourceType` is an identity (name tag)
uniquely naming an exposable entity, e.g. `Products` or `Brand`. -/
def ResourceType : Type := String

instance : DecidableEq ResourceType := fun a b => String.decEq a b

instance : Coe String ResourceType := ⟨fun s => s⟩

/-- Modelled from the spec: operations form the closed set
{Get, Create, Update, Delete}. -/
inductive Operation : Type where
  | Get : Operation
  | Create : Operation
  | Update : Operation
  | Delete : Operation
deriving DecidableEq, Repr

/-- Modelled from the spec: a decision is `Allow` or `Deny(reason)`. -/
inductive Decision : Type where
  | Allow : Decision
  | Deny : String → Decision
deriving DecidableEq, Repr

/-- Modelled from the spec: a predicate is a pure function from request
context to a decision. The context carries at minimum a principal; its
exact shape is framework-defined, so we embed the minimal form. -/
structure Context : Type where
  principal : String
deriving DecidableEq, Repr

/-- Modelled from the spec: the basic unit of a permission rule. -/
def Predicate : Type := Context → Decision

/-- Modelled from the spec: `allow_read()` is the unconditional Allow
predicate used by both registrations in `src/resources/tables.rs`. -/
def allow_read : Predicate := fun _ => Decision.Allow

/-- Modelled from the spec: `denyAlways()` from the predicate library. -/
def deny_always : Predicate := fun _ => Decision.Deny "denied"

/-- Modelled from the spec: `allowIf(condition)` from the predicate library,
Allow when the condition holds, else Deny with a generic reason. -/
def allow_if (cond : Context → Bool) : Predicate :=
  fun ctx => if cond ctx then Decision.Allow else Decision.Deny "condition not satisfied"

/-- Modelled from the spec: the registry maps (resource type, operation) to an
ordered predicate sequence, and records the directed composition edges
(derived, source). -/
structure Registry : Type where
  entries : List ((ResourceType × Operation) × List Predicate)
  edges : List (ResourceType × ResourceType)

/-- The empty registry, before any declaration site has run. -/
def Registry.empty : Registry := ⟨[], []⟩

/-- Modelled from the spec: configuration errors are fatal at startup. -/
inductive ConfigError : Type where
  | duplicateRegistration : ConfigError
  | cyclicComposition : ConfigError
deriving DecidableEq, Repr

/-- Modelled from the spec: `lookup(resourceType, operation)` returns the
operation-table entry, or nothing when the pair is unregistered. -/
def lookupEntry (reg : Registry) (r : ResourceType) (op : Operation) : Option (List Predicate) :=
  (reg.entries.find? (fun e => decide (e.1 = (r, op)))).map (fun e => e.2)

/-- The source resources of all composition edges leaving `r`. -/
def edgesFrom (reg : Registry) (r : ResourceType) : List ResourceType :=
  (reg.edges.filter (fun e => decide (e.1 = r))).map (fun e => e.2)

/-- Modelled from the spec: predicates compose by logical AND with
short-circuit: Allow iff every predicate allows, and the first Deny
encountered surfaces its reason. -/
def evalPreds : List Predicate → Context → Decision
  | [], _ => Decision.Allow
  | p :: ps, ctx =>
    match p ctx with
    | Decision.Allow => evalPreds ps ctx
    | Decision.Deny r => Decision.Deny r

/-- Modelled from the spec: a multi-source join requires ALL source decisions
to be Allow; the first Deny surfaces. Evaluation of each source is fallible
(`none` signals that the fuel bound was hit). -/
def evalSources (f : ResourceType → Option Decision) : List ResourceType → Option Decision
  | [] => some Decision.Allow
  | s :: ss =>
    match f s with
    | none => none
    | some (Decision.Deny r) => some (Decision.Deny r)
    | some Decision.Allow => evalSources f ss

/-- Modelled from the spec: the dispatcher algorithm, fuel-bounded. (1) look
up the operation table for (resource, operation) and evaluate it when
present; (2) otherwise delegate to the composition edges, requiring every
source to allow; (3) otherwise fail closed with reason
"unregistered resource/operation". The recursion over edges is bounded by
acyclicity; `none` reports fuel exhaustion, which never happens on an
acyclic registry with the canonical fuel. -/
def authorizeO (reg : Registry) : Nat → ResourceType → Operation → Context → Option Decision
  | 0, _, _, _ => none
  | n + 1, r, op, ctx =>
    match lookupEntry reg r op with
    | some ps => some (evalPreds ps ctx)
    | none =>
      match edgesFrom reg r with
      | [] => some (Decision.Deny "unregistered resource/operation")
      | s :: ss => evalSources (fun t => authorizeO reg n t op ctx) (s :: ss)

/-- Modelled from the spec: `authorize(resourceType, operation, context)`,
run with the canonical fuel that suffices for every acyclic registry; the
default on fuel exhaustion is fail-closed. -/
def authorize (reg : Registry) (r : ResourceType) (op : Operation) (ctx : Context) : Decision :=
  (authorizeO reg (reg.edges.length + 1) r op ctx).getD (Decision.Deny "composition depth exceeded")

/-- Modelled from the spec: `register(resourceType, operation, predicates)`;
duplicate registration of the same pair is rejected with a configuration
error rather than merged. -/
def Registry.register (reg : Registry) (r : ResourceType) (op : Operation)
    (ps : List Predicate) : Except ConfigError Registry :=
  match lookupEntry reg r op with
  | some _ => Except.error ConfigError.duplicateRegistration
  | none => Except.ok ⟨reg.entries ++ [((r, op), ps)], reg.edges⟩

/-- One step of the edge relation of a composition graph. -/
def EdgeRel (E : List (ResourceType × ResourceType)) (a b : ResourceType) : Prop :=
  (a, b) ∈ E

/-- Reachability along composition edges (reflexive-transitive closure). -/
def Reach (E : List (ResourceType × ResourceType)) (a b : ResourceType) : Prop :=
  Relation.ReflTransGen (EdgeRel E) a b

/-- Acyclicity of a composition graph: no edge closes a path back to its
own source. -/
def Acyclic (E : List (ResourceType × ResourceType)) : Prop :=
  ∀ a b, (a, b) ∈ E → ¬ Reach E b a

/-- Fuel-bounded reachability check used by the registration-time cycle
detector. -/
def reachB (E : List (ResourceType × ResourceType)) : Nat → ResourceType → ResourceType → Bool
  | 0, a, b => decide (a = b)
  | n + 1, a, b =>
    decide (a = b) || (E.filter (fun e => decide (e.1 = a))).any (fun e => reachB E n e.2 b)

/-- Modelled from the spec: `registerComposition(derived, source)` records a
composition edge; an edge that would introduce a cycle is rejected at
registration time with a configuration error. -/
def Registry.registerComposition (reg : Registry) (d s : ResourceType) :
    Except ConfigError Registry :=
  if reachB reg.edges (reg.edges.length + 1) s d then
    Except.error ConfigError.cyclicComposition
  else
    Except.ok ⟨reg.entries, reg.edges ++ [(d, s)]⟩

/-- The two declaration sites of `src/resources/tables.rs`, run against the
modelled registration API: Products gets `get => allow_read()`, then Brand
gets `get => allow_read()`. -/
def demoRegistryE : Except ConfigError Registry :=
  (Registry.empty.register "Products" Operation.Get [allow_read]).bind
    (fun reg => reg.register "Brand" Operation.Get [allow_read])

/-- The registry produced by the fragment in `src/resources/tables.rs`. -/
def demoRegistry : Registry :=
  ⟨[(("Products", Operation.Get), [allow_read]), (("Brand", Operation.Get), [allow_read])], []⟩

/-- The scenario registry of the spec: Brand has its own `Get` entry of
`[allow_read]` AND a composition edge to Products, whose own predicate list
is arbitrary. -/
def brandRegistry (prodPreds : List Predicate) : Registry :=
  ⟨[(("Brand", Operation.Get), [allow_read]), (("Products", Operation.Get), prodPreds)],
    [("Brand", "Products")]⟩

/-- A small registry with one derived resource inheriting from one source,
used to exercise single-edge delegation. -/
def singleEdgeRegistry : Registry :=
  ⟨[(("Products", Operation.Get), [allow_read])], [("Brand", "Products")]⟩

/-- A small registry with one derived resource joined from two sources,
used to exercise multi-source joins. -/
def joinRegistry : Registry :=
  ⟨[(("S1", Operation.Get), [allow_read]), (("S2", Operation.Get), [deny_always])],
    [("D", "S1"), ("D", "S2")]⟩

/-- A fixed sample context. -/
def ctx0 : Context := ⟨"anyone"⟩

/-- Evaluating a predicate sequence yields Allow exactly when every predicate
in it allows the context. -/
theorem evalPreds_allow_iff (P : List Predicate) (ctx : Context) :
    evalPreds P ctx = Decision.Allow ↔ ∀ p ∈ P, p ctx = Decision.Allow := by
  induction P with
  | nil => simp [evalPreds]
  | cons p ps ih =>
    simp only [evalPreds]
    cases hp : p ctx with
    | Allow => simp [List.forall_mem_cons, hp, ih]
    | Deny r => simp [List.forall_mem_cons, hp]

/-- Evaluating a predicate sequence yields `Deny rsn` exactly when the
sequence splits as an all-allowing prefix followed by a predicate denying
with reason `rsn`. -/
theorem evalPreds_deny_iff (P : List Predicate) (ctx : Context) (rsn : String) :
    evalPreds P ctx = Decision.Deny rsn ↔
      ∃ l₁ p l₂, P = l₁ ++ p :: l₂ ∧ (∀ q ∈ l₁, q ctx = Decision.Allow) ∧
        p ctx = Decision.Deny rsn := by
  induction P with
  | nil =>
    simp only [evalPreds]
    constructor
    · intro h; exact absurd h (by simp)
    · rintro ⟨l₁, p, l₂, h, -, -⟩
      cases l₁ <;> simp at h
  | cons p ps ih =>
    simp only [evalPreds]
    cases hp : p ctx with
    | Allow =>
      rw [ih]
      constructor
      · rintro ⟨l₁, q, l₂, rfl, hall, hq⟩
        exact ⟨p :: l₁, q, l₂, rfl, List.forall_mem_cons.2 ⟨hp, hall⟩, hq⟩
      · rintro ⟨l₁, q, l₂, heq, hall, hq⟩
        cases l₁ with
        | nil =>
          simp only [List.nil_append] at heq
          obtain ⟨rfl, rfl⟩ := List.cons.inj heq
          rw [hp] at hq
          exact absurd hq (by simp)
        | cons a l₁ =>
          simp only [List.cons_append] at heq
          obtain ⟨rfl, rfl⟩ := List.cons.inj heq
          exact ⟨l₁, q, l₂, rfl, fun x hx => hall x (List.mem_cons_of_mem _ hx), hq⟩
    | Deny s =>
      constructor
      · intro h
        obtain rfl : s = rsn := by cases h; rfl
        exact ⟨[], p, ps, rfl, by simp, hp⟩
      · rintro ⟨l₁, q, l₂, heq, hall, hq⟩
        cases l₁ with
        | nil =>
          simp only [List.nil_append] at heq
          obtain ⟨rfl, rfl⟩ := List.cons.inj heq
          rw [hp] at hq
          exact hq.symm ▸ rfl
        | cons a l₁ =>
          simp only [List.cons_append] at heq
          obtain ⟨rfl, rfl⟩ := List.cons.inj heq
          have := hall p (List.mem_cons_self _ _)
          rw [hp] at this
          exact absurd this (by simp)

/-- Concatenated predicate sequences evaluate left to right with
short-circuit on the first Deny. -/
theorem evalPreds_append (P Q : List Predicate) (ctx : Context) :
    evalPreds (P ++ Q) ctx =
      match evalPreds P ctx with
      | Decision.Allow => evalPreds Q ctx
      | Decision.Deny r => Decision.Deny r := by
  induction P with
  | nil => simp [evalPreds]
  | cons p ps ih =>
    simp only [List.cons_append, evalPreds]
    cases hp : p ctx with
    | Allow => exact ih
    | Deny r => rfl

/-- Source evaluation is monotone in the per-source evaluator: anything a
weaker evaluator settles, a stronger one settles identically. -/
theorem evalSources_mono {f g : ResourceType → Option Decision} :
    ∀ {ss : List ResourceType} {d : Decision},
      (∀ s ∈ ss, ∀ d', f s = some d' → g s = some d') →
      evalSources f ss = some d → evalSources g ss = some d := by
  intro ss
  induction ss with
  | nil => intro d _ h; exact h
  | cons s ss ih =>
    intro d hfg h
    simp only [evalSources] at h ⊢
    cases hf : f s with
    | none => rw [hf] at h; exact absurd h (by simp)
    | some d' =>
      rw [hf] at h
      rw [hfg s (List.mem_cons_self _ _) d' hf]
      cases d' with
      | Allow => exact ih (fun t ht => hfg t (List.mem_cons_of_mem _ ht)) h
      | Deny r => exact h

/-- Source evaluation settles whenever every source settles. -/
theorem evalSources_total {f : ResourceType → Option Decision} :
    ∀ {ss : List ResourceType},
      (∀ s ∈ ss, ∃ d, f s = some d) → ∃ d, evalSources f ss = some d := by
  intro ss
  induction ss with
  | nil => intro _; exact ⟨Decision.Allow, rfl⟩
  | cons s ss ih =>
    intro hf
    obtain ⟨d, hd⟩ := hf s (List.mem_cons_self _ _)
    cases d with
    | Allow =>
      obtain ⟨d', hd'⟩ := ih (fun t ht => hf t (List.mem_cons_of_mem _ ht))
      exact ⟨d', by simp [evalSources, hd, hd']⟩
    | Deny r => exact ⟨Decision.Deny r, by simp [evalSources, hd]⟩

/-- Membership in the outgoing-edge sources of a resource. -/
theorem mem_edgesFrom (reg : Registry) (r s : ResourceType) :
    s ∈ edgesFrom reg r ↔ (r, s) ∈ reg.edges := by
  simp only [edgesFrom, List.mem_map, List.mem_filter, decide_eq_true_eq]
  constructor
  · rintro ⟨⟨a, b⟩, ⟨hmem, h1⟩, h2⟩
    subst h1; subst h2
    simpa using hmem
  · intro h
    exact ⟨(r, s), ⟨h, rfl⟩, rfl⟩

/-- Fuel monotonicity: a decision reached with little fuel is reached, and
is the same, with any more fuel. -/
theorem authorizeO_mono (reg : Registry) :
    ∀ n m, n ≤ m → ∀ r op ctx d,
      authorizeO reg n r op ctx = some d → authorizeO reg m r op ctx = some d := by
  intro n
  induction n with
  | zero => intro m _ r op ctx d h; exact absurd h (by simp [authorizeO])
  | succ n ih =>
    intro m hm r op ctx d h
    obtain ⟨m', rfl⟩ : ∃ m', m = m' + 1 := ⟨m - 1, by omega⟩
    have hm' : n ≤ m' := by omega
    simp only [authorizeO] at h ⊢
    cases hl : lookupEntry reg r op with
    | some ps => rw [hl] at h; exact h
    | none =>
      rw [hl] at h
      cases he : edgesFrom reg r with
      | nil => rw [he] at h; exact h
      | cons s ss =>
        rw [he] at h
        exact evalSources_mono (fun t _ d' ht => ih m' hm' t op ctx d' ht) h

/-- The dispatcher settles with fuel `n` from any resource whose outgoing
composition chains all have length below `n`. -/
theorem authorizeO_total_of_chains (reg : Registry) :
    ∀ n r, (∀ l, List.Chain (EdgeRel reg.edges) r l → l.length < n) →
      ∀ op ctx, ∃ d, authorizeO reg n r op ctx = some d := by
  intro n
  induction n with
  | zero =>
    intro r hr op ctx
    exact absurd (hr [] List.Chain.nil) (by simp)
  | succ n ih =>
    intro r hr op ctx
    simp only [authorizeO]
    cases hl : lookupEntry reg r op with
    | some ps => exact ⟨_, rfl⟩
    | none =>
      cases he : edgesFrom reg r with
      | nil => exact ⟨_, rfl⟩
      | cons s ss =>
        apply evalSources_total
        intro t ht
        apply ih t ?_ op ctx
        intro l hc
        have hrel : EdgeRel reg.edges r t := by
          have : t ∈ edgesFrom reg r := by rw [he]; exact ht
          exact (mem_edgesFrom reg r t).1 this
        have := hr (t :: l) (List.Chain.cons hrel hc)
        simpa using Nat.lt_of_succ_lt_succ (by simpa using this)

/-- When the pair has its own operation-table entry, the dispatcher
evaluates exactly that entry. -/
theorem authorize_of_entry {reg : Registry} {r : ResourceType} {op : Operation}
    {P : List Predicate} {ctx : Context} (hl : lookupEntry reg r op = some P) :
    authorize reg r op ctx = evalPreds P ctx := by
  simp [authorize, authorizeO, hl]

/-- When the pair has no entry and no composition edge applies, the
dispatcher fails closed. -/
theorem authorize_unregistered {reg : Registry} {r : ResourceType} {op : Operation}
    {ctx : Context} (hl : lookupEntry reg r op = none) (he : edgesFrom reg r = []) :
    authorize reg r op ctx = Decision.Deny "unregistered resource/operation" := by
  simp [authorize, authorizeO, hl, he]

/-- Every consecutive pair along an edge chain is an edge, and its source
vertex is reachable from the start of the chain. -/
theorem chain_zip_mem {E : List (ResourceType × ResourceType)} :
    ∀ {l : List ResourceType} {s a b : ResourceType},
      List.Chain (EdgeRel E) s l → (a, b) ∈ List.zip (s :: l) l →
      (a, b) ∈ E ∧ Reach E s a := by
  intro l
  induction l with
  | nil => intro s a b _ hmem; simp at hmem
  | cons t l' ih =>
    intro s a b hc hmem
    cases hc with
    | cons hst hc' =>
      rw [List.zip_cons_cons, List.mem_cons] at hmem
      rcases hmem with heq | hmem
      · obtain ⟨rfl, rfl⟩ := Prod.mk.inj heq
        exact ⟨hst, Relation.ReflTransGen.refl⟩
      · obtain ⟨hE, hreach⟩ := ih hc' hmem
        exact ⟨hE, Relation.ReflTransGen.head hst hreach⟩

/-- Along a chain in an acyclic graph, no consecutive edge repeats. -/
theorem chain_zip_nodup {E : List (ResourceType × ResourceType)} (hA : Acyclic E) :
    ∀ {l : List ResourceType} {s : ResourceType},
      List.Chain (EdgeRel E) s l → (List.zip (s :: l) l).Nodup := by
  intro l
  induction l with
  | nil => intro s _; simp
  | cons t l' ih =>
    intro s hc
    cases hc with
    | cons hst hc' =>
      rw [List.zip_cons_cons]
      refine List.nodup_cons.2 ⟨?_, ih hc'⟩
      intro hmem
      exact hA s t hst (chain_zip_mem hc' hmem).2

/-- In an acyclic graph, a chain is no longer than the edge list. -/
theorem chain_length_le {E : List (ResourceType × ResourceType)} (hA : Acyclic E)
    {s : ResourceType} {l : List ResourceType} (hc : List.Chain (EdgeRel E) s l) :
    l.length ≤ E.length := by
  have hnd := chain_zip_nodup hA hc
  have hsub : List.zip (s :: l) l ⊆ E := by
    rintro ⟨a, b⟩ hx
    exact (chain_zip_mem hc hx).1
  have := (hnd.subperm hsub).length_le
  simp only [List.length_zip, List.length_cons] at this
  omega

/-- In an acyclic graph, a chain starting at the target of some edge is
strictly shorter than the edge list: that edge can never occur on it. -/
theorem chain_length_lt {E : List (ResourceType × ResourceType)} (hA : Acyclic E)
    {x s : ResourceType} (hxs : (x, s) ∈ E)
    {l : List ResourceType} (hc : List.Chain (EdgeRel E) s l) :
    l.length < E.length := by
  have hnd := chain_zip_nodup hA hc
  have hsub : List.zip (s :: l) l ⊆ E.erase (x, s) := by
    rintro ⟨a, b⟩ hx
    obtain ⟨hE, hreach⟩ := chain_zip_mem hc hx
    have hne : (a, b) ≠ (x, s) := by
      rintro heq
      obtain ⟨rfl, rfl⟩ := Prod.mk.inj heq
      exact hA a b hxs hreach
    exact (List.mem_erase_of_ne hne).2 hE
  have := (hnd.subperm hsub).length_le
  simp only [List.length_zip, List.length_cons, List.length_erase_of_mem hxs] at this
  have hpos : 0 < E.length := List.length_pos.2 (by rintro rfl; simp at hxs)
  omega

/-- Reachability is exactly the existence of an edge chain ending at the
target. -/
theorem reach_iff_chain {E : List (ResourceType × ResourceType)} {a b : ResourceType} :
    Reach E a b ↔ ∃ l, List.Chain (EdgeRel E) a l ∧ l.getLastD a = b := by
  constructor
  · intro h
    induction h using Relation.ReflTransGen.head_induction_on with
    | refl => exact ⟨[], List.Chain.nil, rfl⟩
    | head h' _ ih =>
      obtain ⟨l, hc, hl⟩ := ih
      exact ⟨_ :: l, List.Chain.cons h' hc, by rw [List.getLastD_cons]; exact hl⟩
  · rintro ⟨l, hc, hl⟩
    induction l generalizing a with
    | nil => exact hl ▸ Relation.ReflTransGen.refl
    | cons t l' ih =>
      cases hc with
      | cons hat hc' =>
        rw [List.getLastD_cons] at hl
        exact Relation.ReflTransGen.head hat (ih hc' hl)

/-- The bounded reachability check only accepts genuinely reachable
targets. -/
theorem reachB_sound {E : List (ResourceType × ResourceType)} :
    ∀ {n : Nat} {a b : ResourceType}, reachB E n a b = true → Reach E a b := by
  intro n
  induction n with
  | zero =>
    intro a b h
    simp only [reachB, decide_eq_true_eq] at h
    exact h ▸ Relation.ReflTransGen.refl
  | succ n ih =>
    intro a b h
    simp only [reachB, Bool.or_eq_true, decide_eq_true_eq, List.any_eq_true] at h
    rcases h with rfl | ⟨e, he, hr⟩
    · exact Relation.ReflTransGen.refl
    · obtain ⟨heE, he1⟩ := List.mem_filter.1 he
      rw [decide_eq_true_eq] at he1
      have hedge : EdgeRel E a e.2 := by
        show (a, e.2) ∈ E
        rw [← he1]
        simpa using heE
      exact Relation.ReflTransGen.head hedge (ih hr)

/-- The bounded reachability check finds any target at the end of a chain
shorter than its fuel. -/
theorem reachB_complete {E : List (ResourceType × ResourceType)} :
    ∀ {l : List ResourceType} {a b : ResourceType} {n : Nat},
      List.Chain (EdgeRel E) a l → l.getLastD a = b → l.length < n →
      reachB E n a b = true := by
  intro l
  induction l with
  | nil =>
    intro a b n _ hl hn
    obtain ⟨m, rfl⟩ : ∃ m, n = m + 1 := ⟨n - 1, by omega⟩
    rw [List.getLastD_nil] at hl
    subst hl
    simp [reachB]
  | cons t l' ih =>
    intro a b n hc hl hn
    obtain ⟨m, rfl⟩ : ∃ m, n = m + 1 := ⟨n - 1, by omega⟩
    cases hc with
    | cons hat hc' =>
      rw [List.getLastD_cons] at hl
      simp only [reachB, Bool.or_eq_true, List.any_eq_true]
      right
      refine ⟨(a, t), List.mem_filter.2 ⟨hat, by simp⟩, ?_⟩
      exact ih hc' hl (by simpa using Nat.lt_of_succ_lt_succ hn)

/-- On an acyclic graph the bounded check with canonical fuel decides
reachability. -/
theorem reach_iff_reachB {E : List (ResourceType × ResourceType)} (hA : Acyclic E)
    {a b : ResourceType} :
    Reach E a b ↔ reachB E (E.length + 1) a b = true := by
  constructor
  · intro h
    obtain ⟨l, hc, hl⟩ := reach_iff_chain.1 h
    exact reachB_complete hc hl (Nat.lt_succ_of_le (chain_length_le hA hc))
  · exact reachB_sound

/-- Reachability is monotone under appending edges. -/
theorem reach_mono_append {E F : List (ResourceType × ResourceType)}
    {a b : ResourceType} (h : Reach E a b) : Reach (E ++ F) a b :=
  Relation.ReflTransGen.mono (fun _ _ hxy => List.mem_append_left _ hxy) h

/-- A path using a freshly appended edge (d, s) whose endpoints are not yet
connected decomposes into old-graph segments through that edge. -/
theorem reach_append_single {E : List (ResourceType × ResourceType)}
    {d s x y : ResourceType} (hns : ¬ Reach E s d)
    (h : Reach (E ++ [(d, s)]) x y) :
    Reach E x y ∨ (Reach E x d ∧ Reach E s y) := by
  induction h using Relation.ReflTransGen.head_induction_on with
  | refl => exact Or.inl Relation.ReflTransGen.refl
  | head h' _ ih =>
    rcases List.mem_append.1 h' with hE | hnew
    · rcases ih with hcy | ⟨hcd, hsy⟩
      · exact Or.inl (Relation.ReflTransGen.head hE hcy)
      · exact Or.inr ⟨Relation.ReflTransGen.head hE hcd, hsy⟩
    · rw [List.mem_singleton] at hnew
      obtain ⟨rfl, rfl⟩ := Prod.mk.inj hnew
      rcases ih with hsy | ⟨hsd, -⟩
      · exact Or.inr ⟨Relation.ReflTransGen.refl, hsy⟩
      · exact absurd hsd hns

/-- Appending an edge whose endpoints are not yet connected backwards keeps
the graph acyclic. -/
theorem acyclic_append {E : List (ResourceType × ResourceType)}
    {d s : ResourceType} (hA : Acyclic E) (hns : ¬ Reach E s d) :
    Acyclic (E ++ [(d, s)]) := by
  intro a b hab hreach
  rcases List.mem_append.1 hab with habE | habnew
  · rcases reach_append_single hns hreach with h | ⟨hbd, hsa⟩
    · exact hA a b habE h
    · exact hns ((hsa.tail habE).trans hbd)
  · rw [List.mem_singleton] at habnew
    obtain ⟨rfl, rfl⟩ := Prod.mk.inj habnew
    rcases reach_append_single hns hreach with h | ⟨hbd, -⟩
    · exact hns h
    · exact hns hbd

/-- Appending an edge that closes an existing path creates a cycle. -/
theorem not_acyclic_append {E : List (ResourceType × ResourceType)}
    {d s : ResourceType} (h : Reach E s d) : ¬ Acyclic (E ++ [(d, s)]) := by
  intro hA
  exact hA d s (List.mem_append_right _ (List.mem_singleton.2 rfl)) (reach_mono_append h)

/-- If a vertex has no outgoing edges, anything it reaches is itself. -/
theorem reach_eq_of_no_edges {E : List (ResourceType × ResourceType)}
    {x y : ResourceType} (hx : ∀ c, (x, c) ∉ E) (h : Reach E x y) : x = y := by
  rcases h.cases_head with rfl | ⟨c, hc, -⟩
  · rfl
  · exact absurd hc (hx c)

/-- Claim C1: for a registered (resourceType, operation) pair whose entry
holds the predicate sequence P, authorize returns Allow iff every predicate
in P allows the context, and returns `Deny rsn` iff the first denying
predicate of P (after an all-allowing prefix) denies with reason `rsn`. -/
theorem claim_C1_registered_pair_evaluation (reg : Registry) (r : ResourceType)
    (op : Operation) (P : List Predicate) (ctx : Context)
    (hl : lookupEntry reg r op = some P) :
    (authorize reg r op ctx = Decision.Allow ↔ ∀ p ∈ P, p ctx = Decision.Allow)
    ∧ (∀ rsn, authorize reg r op ctx = Decision.Deny rsn ↔
        ∃ l₁ p l₂, P = l₁ ++ p :: l₂ ∧ (∀ q ∈ l₁, q ctx = Decision.Allow) ∧
          p ctx = Decision.Deny rsn) := by
  rw [authorize_of_entry hl]
  exact ⟨evalPreds_allow_iff P ctx, fun rsn => evalPreds_deny_iff P ctx rsn⟩

/-- Witness for C1 at the Products/Get registration of the fragment. -/
theorem claim_C1_witness :
    (authorize demoRegistry "Products" Operation.Get ctx0 = Decision.Allow ↔
      ∀ p ∈ [allow_read], p ctx0 = Decision.Allow)
    ∧ (∀ rsn, authorize demoRegistry "Products" Operation.Get ctx0 = Decision.Deny rsn ↔
        ∃ l₁ p l₂, [allow_read] = l₁ ++ p :: l₂ ∧ (∀ q ∈ l₁, q ctx0 = Decision.Allow) ∧
          p ctx0 = Decision.Deny rsn) :=
  claim_C1_registered_pair_evaluation demoRegistry "Products" Operation.Get [allow_read] ctx0 rfl

/-- Claim C2: an unregistered (resourceType, operation) pair with no
composition edge is denied with reason "unregistered resource/operation",
never allowed; in particular Products/Delete in the fragment. -/
theorem claim_C2_fail_closed :
    (∀ (reg : Registry) (r : ResourceType) (op : Operation) (ctx : Context),
      lookupEntry reg r op = none → edgesFrom reg r = [] →
      authorize reg r op ctx = Decision.Deny "unregistered resource/operation")
    ∧ (∀ ctx : Context, authorize demoRegistry "Products" Operation.Delete ctx =
        Decision.Deny "unregistered resource/operation") :=
  ⟨fun _ _ _ _ hl he => authorize_unregistered hl he, fun _ => rfl⟩

/-- Witness for C2 at the unregistered Brand/Update pair. -/
theorem claim_C2_witness :
    authorize demoRegistry "Brand" Operation.Update ctx0 =
      Decision.Deny "unregistered resource/operation" :=
  claim_C2_fail_closed.1 demoRegistry "Brand" Operation.Update ctx0 rfl rfl

/-- Claim C3: a derived resource with a single composition edge and no own
entry for the operation inherits the source decision verbatim. -/
theorem claim_C3_single_edge_delegation (reg : Registry) (R S : ResourceType)
    (op : Operation) (ctx : Context) (hA : Acyclic reg.edges)
    (hl : lookupEntry reg R op = none) (he : edgesFrom reg R = [S]) :
    authorize reg R op ctx = authorize reg S op ctx := by
  have hSmem : S ∈ edgesFrom reg R := by rw [he]; exact List.mem_singleton_self S
  have hRS : (R, S) ∈ reg.edges := (mem_edgesFrom reg R S).1 hSmem
  obtain ⟨d, hd⟩ := authorizeO_total_of_chains reg reg.edges.length S
    (fun l hc => chain_length_lt hA hRS hc) op ctx
  have h1 : authorizeO reg (reg.edges.length + 1) R op ctx = some d := by
    simp only [authorizeO, hl, he]
    cases d with
    | Allow => simp [evalSources, hd]
    | Deny r => simp [evalSources, hd]
  have h2 : authorizeO reg (reg.edges.length + 1) S op ctx = some d :=
    authorizeO_mono reg reg.edges.length (reg.edges.length + 1) (Nat.le_succ _) S op ctx d hd
  simp [authorize, h1, h2]

/-- Witness for C3 at a Brand -> Products edge with no own Brand entry. -/
theorem claim_C3_witness :
    authorize singleEdgeRegistry "Brand" Operation.Get ctx0 =
      authorize singleEdgeRegistry "Products" Operation.Get ctx0 := by
  have hA : Acyclic singleEdgeRegistry.edges := by
    intro a b hab hr
    have hab' : (a, b) ∈ [(("Brand" : ResourceType), ("Products" : ResourceType))] := hab
    obtain ⟨rfl, rfl⟩ := Prod.mk.inj (List.mem_singleton.1 hab')
    have hnone : ∀ c, (("Products" : ResourceType), c) ∉ singleEdgeRegistry.edges := by
      intro c hc
      have hc' : (("Products" : ResourceType), c) ∈
        [(("Brand" : ResourceType), ("Products" : ResourceType))] := hc
      exact absurd (Prod.mk.inj (List.mem_singleton.1 hc')).1 (by decide)
    exact absurd (reach_eq_of_no_edges hnone hr) (by decide)
  exact claim_C3_single_edge_delegation singleEdgeRegistry "Brand" "Products"
    Operation.Get ctx0 hA rfl rfl

/-- Claim C4: a derived resource joined from two sources (two composition
edges, no own entry) is allowed exactly when both sources are allowed, so
any source Deny makes the composed decision Deny. -/
theorem claim_C4_join_requires_all (reg : Registry) (D S1 S2 : ResourceType)
    (op : Operation) (ctx : Context) (hA : Acyclic reg.edges)
    (hl : lookupEntry reg D op = none) (he : edgesFrom reg D = [S1, S2]) :
    (authorize reg D op ctx = Decision.Allow ↔
      (authorize reg S1 op ctx = Decision.Allow ∧
        authorize reg S2 op ctx = Decision.Allow)) := by
  have h1mem : S1 ∈ edgesFrom reg D := by rw [he]; simp
  have h2mem : S2 ∈ edgesFrom reg D := by rw [he]; simp
  have hD1 : (D, S1) ∈ reg.edges := (mem_edgesFrom reg D S1).1 h1mem
  have hD2 : (D, S2) ∈ reg.edges := (mem_edgesFrom reg D S2).1 h2mem
  obtain ⟨d1, hd1⟩ := authorizeO_total_of_chains reg reg.edges.length S1
    (fun l hc => chain_length_lt hA hD1 hc) op ctx
  obtain ⟨d2, hd2⟩ := authorizeO_total_of_chains reg reg.edges.length S2
    (fun l hc => chain_length_lt hA hD2 hc) op ctx
  have hs1 : authorize reg S1 op ctx = d1 := by
    have h := authorizeO_mono reg reg.edges.length (reg.edges.length + 1)
      (Nat.le_succ _) S1 op ctx d1 hd1
    simp [authorize, h]
  have hs2 : authorize reg S2 op ctx = d2 := by
    have h := authorizeO_mono reg reg.edges.length (reg.edges.length + 1)
      (Nat.le_succ _) S2 op ctx d2 hd2
    simp [authorize, h]
  rw [hs1, hs2]
  have hD : authorizeO reg (reg.edges.length + 1) D op ctx =
      evalSources (fun t => authorizeO reg reg.edges.length t op ctx) [S1, S2] := by
    simp only [authorizeO, hl, he]
  simp only [authorize]
  rw [hD]
  cases d1 with
  | Allow =>
    cases d2 with
    | Allow => simp [evalSources, hd1, hd2]
    | Deny r => simp [evalSources, hd1, hd2]
  | Deny r => simp [evalSources, hd1]

/-- Witness for C4 at a D joined from S1 (allowing) and S2 (denying). -/
theorem claim_C4_witness :
    (authorize joinRegistry "D" Operation.Get ctx0 = Decision.Allow ↔
      (authorize joinRegistry "S1" Operation.Get ctx0 = Decision.Allow ∧
        authorize joinRegistry "S2" Operation.Get ctx0 = Decision.Allow)) := by
  have hA : Acyclic joinRegistry.edges := by
    intro a b hab hr
    have hab' : (a, b) ∈
      [(("D" : ResourceType), ("S1" : ResourceType)), ("D", "S2")] := hab
    have hnone : ∀ x, x ≠ ("D" : ResourceType) → ∀ c, (x, c) ∉ joinRegistry.edges := by
      intro x hx c hc
      have hc' : (x, c) ∈
        [(("D" : ResourceType), ("S1" : ResourceType)), ("D", "S2")] := hc
      rcases List.mem_cons.1 hc' with h | h
      · exact hx (Prod.mk.inj h).1
      · exact hx (Prod.mk.inj (List.mem_singleton.1 h)).1
    rcases List.mem_cons.1 hab' with h | h
    · obtain ⟨rfl, rfl⟩ := Prod.mk.inj h
      exact absurd (reach_eq_of_no_edges (hnone _ (by decide)) hr) (by decide)
    · obtain ⟨rfl, rfl⟩ := Prod.mk.inj (List.mem_singleton.1 h)
      exact absurd (reach_eq_of_no_edges (hnone _ (by decide)) hr) (by decide)
  exact claim_C4_join_requires_all joinRegistry "D" "S1" "S2" Operation.Get ctx0 hA rfl rfl

/-- Claim C5: an own operation-table entry takes precedence over any
composition edge (the result is exactly the evaluation of that entry and is
independent of the edges), and in particular Brand with its own
`Get => [allow_read]` entry is allowed whatever the Products entry holds. -/
theorem claim_C5_override_precedence :
    (∀ (reg : Registry) (D : ResourceType) (op : Operation) (ctx : Context)
      (P : List Predicate), lookupEntry reg D op = some P →
      authorize reg D op ctx = evalPreds P ctx)
    ∧ (∀ (prodPreds : List Predicate) (ctx : Context),
      authorize (brandRegistry prodPreds) "Brand" Operation.Get ctx = Decision.Allow) :=
  ⟨fun _ _ _ _ _ hl => authorize_of_entry hl, fun _ _ => rfl⟩

/-- Witness for C5 at the Products/Get entry and a denying Products list. -/
theorem claim_C5_witness :
    authorize demoRegistry "Products" Operation.Get ctx0 = evalPreds [allow_read] ctx0 ∧
    authorize (brandRegistry [deny_always]) "Brand" Operation.Get ctx0 = Decision.Allow :=
  ⟨claim_C5_override_precedence.1 demoRegistry "Products" Operation.Get ctx0 [allow_read] rfl,
    claim_C5_override_precedence.2 [deny_always] ctx0⟩

/-- Claim C6: with Products registered as `Get => [allow_read]`, every
context is allowed to Get Products. -/
theorem claim_C6_products_get_allow (ctx : Context) :
    authorize demoRegistry "Products" Operation.Get ctx = Decision.Allow := rfl

/-- Claim C7: appending a predicate to a sequence can only narrow access:
a Deny of the base sequence survives (with its reason) in the extended
sequence, and an Allow of the extended sequence forces an Allow of the
base sequence. -/
theorem claim_C7_additive_restriction (P : List Predicate) (p : Predicate) (ctx : Context) :
    (∀ rsn, evalPreds P ctx = Decision.Deny rsn →
      evalPreds (P ++ [p]) ctx = Decision.Deny rsn)
    ∧ (evalPreds (P ++ [p]) ctx = Decision.Allow → evalPreds P ctx = Decision.Allow) := by
  constructor
  · intro rsn h
    rw [evalPreds_append, h]
  · intro h
    rw [evalPreds_append] at h
    cases he : evalPreds P ctx with
    | Allow => rfl
    | Deny r => rw [he] at h; simp at h

/-- Witness for C7: a denying singleton stays denying after extension, and
an allowing extended pair has an allowing base. -/
theorem claim_C7_witness :
    evalPreds ([deny_always] ++ [allow_read]) ctx0 = Decision.Deny "denied" ∧
    evalPreds [allow_read] ctx0 = Decision.Allow :=
  ⟨(claim_C7_additive_restriction [deny_always] allow_read ctx0).1 "denied" rfl,
    (claim_C7_additive_restriction [allow_read] allow_read ctx0).2 rfl⟩

/-- Claim C8: registering an already-registered (resourceType, operation)
pair fails with the duplicate-registration configuration error, produces no
new registry, and the existing entry is untouched. -/
theorem claim_C8_duplicate_rejected (reg : Registry) (r : ResourceType) (op : Operation)
    (P Q : List Predicate) (hl : lookupEntry reg r op = some P) :
    reg.register r op Q = Except.error ConfigError.duplicateRegistration
    ∧ (∀ reg', reg.register r op Q ≠ Except.ok reg')
    ∧ lookupEntry reg r op = some P := by
  have herr : reg.register r op Q = Except.error ConfigError.duplicateRegistration := by
    simp [Registry.register, hl]
  refine ⟨herr, fun reg' hok => ?_, hl⟩
  rw [herr] at hok
  exact absurd hok (by simp)

/-- Witness for C8: a second registration of Products/Get is rejected. -/
theorem claim_C8_witness :
    Registry.register demoRegistry "Products" Operation.Get [deny_always] =
      Except.error ConfigError.duplicateRegistration
    ∧ (∀ reg', Registry.register demoRegistry "Products" Operation.Get [deny_always] ≠
        Except.ok reg')
    ∧ lookupEntry demoRegistry "Products" Operation.Get = some [allow_read] :=
  claim_C8_duplicate_rejected demoRegistry "Products" Operation.Get [allow_read] [deny_always] rfl

/-- Claim C9: on an acyclic registry, registering a composition edge
succeeds exactly when the extended graph stays acyclic, a successful
registration keeps the registry acyclic, a rejected one reports the cyclic
configuration error exactly when the edge would close a cycle, and the
dispatcher recursion terminates (never exhausts the canonical fuel) for
every input. -/
theorem claim_C9_cycle_rejection (reg : Registry) (d s : ResourceType)
    (hA : Acyclic reg.edges) :
    ((∃ reg', reg.registerComposition d s = Except.ok reg') ↔
      Acyclic (reg.edges ++ [(d, s)]))
    ∧ (∀ reg', reg.registerComposition d s = Except.ok reg' → Acyclic reg'.edges)
    ∧ (reg.registerComposition d s = Except.error ConfigError.cyclicComposition ↔
        ¬ Acyclic (reg.edges ++ [(d, s)]))
    ∧ (∀ r op ctx, authorizeO reg (reg.edges.length + 1) r op ctx ≠ none) := by
  have hkey : reachB reg.edges (reg.edges.length + 1) s d = true ↔
      ¬ Acyclic (reg.edges ++ [(d, s)]) := by
    rw [← reach_iff_reachB hA]
    constructor
    · exact not_acyclic_append
    · intro hnA
      by_contra hns
      exact hnA (acyclic_append hA hns)
  refine ⟨?_, ?_, ?_, ?_⟩
  · constructor
    · rintro ⟨reg', hok⟩
      by_cases hb : reachB reg.edges (reg.edges.length + 1) s d = true
      · simp [Registry.registerComposition, hb] at hok
      · exact not_not.1 (mt hkey.2 hb)
    · intro hAc
      have hb : ¬ reachB reg.edges (reg.edges.length + 1) s d = true :=
        fun hb => (hkey.1 hb) hAc
      exact ⟨⟨reg.entries, reg.edges ++ [(d, s)]⟩,
        by simp [Registry.registerComposition, hb]⟩
  · intro reg' hok
    by_cases hb : reachB reg.edges (reg.edges.length + 1) s d = true
    · simp [Registry.registerComposition, hb] at hok
    · have hAc := not_not.1 (mt hkey.2 hb)
      simp [Registry.registerComposition, hb] at hok
      rw [← hok]
      exact hAc
  · constructor
    · intro herr hAc
      by_cases hb : reachB reg.edges (reg.edges.length + 1) s d = true
      · exact (hkey.1 hb) hAc
      · simp [Registry.registerComposition, hb] at herr
    · intro hnAc
      simp [Registry.registerComposition, hkey.2 hnAc]
  · intro r op ctx
    obtain ⟨d', hd'⟩ := authorizeO_total_of_chains reg (reg.edges.length + 1) r
      (fun l hc => Nat.lt_succ_of_le (chain_length_le hA hc)) op ctx
    simp [hd']

/-- Witness for C9: on the demo registry the dispatcher never runs out of
fuel. -/
theorem claim_C9_witness :
    authorizeO demoRegistry (demoRegistry.edges.length + 1) "Products"
      Operation.Get ctx0 ≠ none := by
  have hA : Acyclic demoRegistry.edges := by
    intro a b hab
    exact absurd hab (List.not_mem_nil _)
  exact (claim_C9_cycle_rejection demoRegistry "Brand" "Products" hA).2.2.2
    "Products" Operation.Get ctx0

/-- Claim C10: the fragment registers exactly Products/Get and Brand/Get,
so every other operation on either resource is denied fail-closed. -/
theorem claim_C10_read_only (op : Operation) (hop : op ≠ Operation.Get) (ctx : Context) :
    authorize demoRegistry "Products" op ctx =
      Decision.Deny "unregistered resource/operation"
    ∧ authorize demoRegistry "Brand" op ctx =
        Decision.Deny "unregistered resource/operation"
    ∧ demoRegistry.entries.map Prod.fst =
        [(("Products" : ResourceType), Operation.Get), ("Brand", Operation.Get)] := by
  cases op with
  | Get => exact absurd rfl hop
  | Create => exact ⟨rfl, rfl, rfl⟩
  | Update => exact ⟨rfl, rfl, rfl⟩
  | Delete => exact ⟨rfl, rfl, rfl⟩

/-- Witness for C10 at the Delete operation. -/
theorem claim_C10_witness :
    authorize demoRegistry "Products" Operation.Delete ctx0 =
      Decision.Deny "unregistered resource/operation"
    ∧ authorize demoRegistry "Brand" Operation.Delete ctx0 =
        Decision.Deny "unregistered resource/operation"
    ∧ demoRegistry.entries.map Prod.fst =
        [(("Products" : ResourceType), Operation.Get), ("Brand", Operation.Get)] :=
  claim_C10_read_only Operation.Delete (by decide) ctx0

end Authz
